import Mathlib

/-!
Verification of the dmake build tool (configuration-variable engine,
interpolation, parser, source-set resolver, output-name synthesis,
directory walker, init guard) against its natural-language specification.

Strings are modelled as lists of characters (`Str`); the Go code operates
on UTF-8 strings, and all behaviour relevant here is character-wise.
-/

set_option maxRecDepth 4000

/-- Str is the model of Go strings: a list of characters. -/
abbrev Str := List Char

/-- str converts a Lean string literal to the `Str` model. -/
def str (s : String) : Str := s.data

/-- isSpaceChar models `unicode.IsSpace` on the ASCII whitespace
characters (space, tab, newline, vertical tab, form feed, carriage
return); these are the only whitespace characters relevant to the
configuration format. -/
def isSpaceChar (c : Char) : Bool :=
  c = ' ' || c = '\t' || c = '\n' || c = '\x0b' || c = '\x0c' || c = '\r'

example : str "ab" = ['a', 'b'] := by decide

example : isSpaceChar ' ' = true := by decide

/-- Op is the assignment-operator tag, from the `Op` enum of the source
(`UnknownOp`, `OpEq`, `OpPlusEq`, `OpMinusEq`). -/
inductive Op where
  | UnknownOp
  | OpEq
  | OpPlusEq
  | OpMinusEq
deriving DecidableEq, Repr

open Op

/-- operators is the source's operator list, in its order: `=`, `+=`, `-=`. -/
def operators : List Str := [str "=", str "+=", str "-="]

/-- OpFromString maps an operator string to its `Op` tag, from the source's
`OpFromString`. The source panics on any other string; that case is
unreachable from the parser, which only produces members of `operators`,
and is modelled as `UnknownOp`. -/
def OpFromString (s : Str) : Op :=
  if s = str "=" then OpEq
  else if s = str "+=" then OpPlusEq
  else if s = str "-=" then OpMinusEq
  else UnknownOp

/-- Var is a variable value paired with the operator that produced it,
from `type Var struct { op Op; value string }` in vars.go. -/
structure Var where
  op : Op
  value : Str
deriving DecidableEq, Repr

/-- MakeVar builds a `Var`, from vars.go. -/
def MakeVar (op : Op) (value : Str) : Var := ⟨op, value⟩

/-- removeAll removes every non-overlapping occurrence of `old` from a
string, scanning left to right; it models Go's
`strings.ReplaceAll(s, old, "")` (which returns `s` unchanged when `old`
is empty). -/
def removeAll (old : Str) (s : Str) : Str :=
  match s with
  | [] => []
  | c :: rest =>
    if old = [] then c :: rest
    else if old.isPrefixOf (c :: rest) then removeAll old ((c :: rest).drop old.length)
    else c :: removeAll old rest
termination_by s.length
decreasing_by
  · simp only [List.length_drop]
    cases old with
    | nil => simp_all
    | cons o os => simp [List.length_cons]; omega
  · simp [List.length_cons]

/-- Var.PlusEq concatenates the right-hand value onto the receiver's,
from vars.go. -/
def Var.PlusEq (v rhs : Var) : Var := MakeVar OpEq (v.value ++ rhs.value)

/-- Var.MinusEq removes all occurrences of the right-hand value from the
receiver's value, from vars.go (`strings.ReplaceAll(v.value, rhs.value, "")`). -/
def Var.MinusEq (v rhs : Var) : Var := MakeVar OpEq (removeAll rhs.value v.value)

/-- Vars is the variable store, Go's `map[string]Var` modelled as an
association list with at most one binding per key (maintained by `Set`). -/
def Vars := List (Str × Var)
deriving instance DecidableEq for Vars

/-- Vars.Set binds a key, replacing any existing binding (Go map store). -/
def Vars.Set (vars : Vars) (key : Str) (v : Var) : Vars :=
  match vars with
  | [] => [(key, v)]
  | (k, w) :: rest => if k = key then (key, v) :: rest else (k, w) :: Vars.Set rest key v

/-- Vars.SetValue binds a key to a plain (`OpEq`) value, from vars.go. -/
def Vars.SetValue (vars : Vars) (key value : Str) : Vars :=
  vars.Set key (MakeVar OpEq value)

/-- Vars.Get looks a key up (Go map lookup with its found flag, as an
`Option`). -/
def Vars.Get (vars : Vars) (key : Str) : Option Var :=
  match vars with
  | [] => none
  | (k, w) :: rest => if k = key then some w else Vars.Get rest key

/-- Vars.GetValue returns a bound key's value string, from vars.go. -/
def Vars.GetValue (vars : Vars) (key : Str) : Option Str :=
  (vars.Get key).map Var.value

/-- Vars.GetString returns a bound key's value string, or the empty string
for an unbound key, from vars.go. -/
def Vars.GetString (vars : Vars) (key : Str) : Str :=
  (vars.GetValue key).getD []

/-- readAndAppend accumulates characters onto `s` until the stop predicate
fires, from vars.go; the stopping character is consumed and dropped. It
returns the accumulated string and the remaining input (the source reads
from a `strings.Reader`, which is modelled as the returned rest-of-input). -/
def readAndAppend (stopFn : Char → Bool) (s : Str) (input : Str) : Str × Str :=
  match input with
  | [] => (s, [])
  | c :: rest => if stopFn c then (s, rest) else readAndAppend stopFn (s ++ [c]) rest

theorem readAndAppend_length (stopFn : Char → Bool) :
    ∀ (input : Str) (s : Str), (readAndAppend stopFn s input).2.length ≤ input.length := by
  intro input
  induction input with
  | nil => intro s; simp [readAndAppend]
  | cons c rest ih =>
    intro s
    simp only [readAndAppend]
    by_cases h : stopFn c
    · simp [h]
    · simp only [h, if_false, List.length_cons]
      exact Nat.le_succ_of_le (ih (s ++ [c]))

/-- Vars.Interpolate expands `$name`, `${name}` and `$$` in a string by a
single left-to-right scan, from vars.go: `$$` emits `$`, `${name}` reads a
key up to `}`, a bare `$name` reads a key up to whitespace (the delimiter
is consumed), and unbound keys expand to the empty string. A trailing `$`
at end of input is emitted literally. The source's reader never fails on
an in-memory string, so the error path is not modelled. -/
def Vars.Interpolate (vars : Vars) (s : Str) : Str :=
  match s with
  | [] => []
  | c :: rest =>
    if c = '$' then
      match rest with
      | [] => ['$']
      | c2 :: rest2 =>
        if c2 = '$' then '$' :: vars.Interpolate rest2
        else if c2 = '{' then
          let p := readAndAppend (fun ch => ch = '}') [] rest2
          vars.GetString p.1 ++ vars.Interpolate p.2
        else
          let p := readAndAppend isSpaceChar [c2] rest2
          vars.GetString p.1 ++ vars.Interpolate p.2
    else
      c :: vars.Interpolate rest
termination_by s.length
decreasing_by
  · simp [List.length_cons]; omega
  · have h := readAndAppend_length (fun ch => ch = '}') rest2 []
    simp only [List.length_cons]; omega
  · have h := readAndAppend_length isSpaceChar rest2 [c2]
    simp only [List.length_cons]; omega
  · simp [List.length_cons]

theorem readAndAppend_spec (stopFn : Char → Bool) (t : Str)
    (ht : ∀ c ∈ t, stopFn c = false) (w : Char) (hw : stopFn w = true) (r : Str) :
    ∀ acc : Str, readAndAppend stopFn acc (t ++ w :: r) = (acc ++ t, r) := by
  induction t with
  | nil => intro acc; simp [readAndAppend, hw]
  | cons c cs ih =>
    intro acc
    have hc : stopFn c = false := ht c (by simp)
    have ih2 := ih (fun x hx => ht x (by simp [hx]))
    simp only [List.cons_append, readAndAppend, hc, Bool.false_eq_true, if_false,
      List.append_eq]
    rw [ih2 (acc ++ [c])]
    simp

theorem interpolate_cons_ne (vars : Vars) (c : Char) (s : Str) (h : c ≠ '$') :
    vars.Interpolate (c :: s) = c :: vars.Interpolate s := by
  rw [Vars.Interpolate.eq_def]
  simp [h]

theorem interpolate_no_dollar (vars : Vars) (s : Str) (h : '$' ∉ s) :
    vars.Interpolate s = s := by
  induction s with
  | nil => simp [Vars.Interpolate]
  | cons c cs ih =>
    have hc : c ≠ '$' := fun hh => h (by simp [hh])
    rw [interpolate_cons_ne vars c cs hc, ih (fun hh => h (by simp [hh]))]

theorem interpolate_lit_append (vars : Vars) (pre s : Str) (h : '$' ∉ pre) :
    vars.Interpolate (pre ++ s) = pre ++ vars.Interpolate s := by
  induction pre with
  | nil => simp
  | cons c cs ih =>
    have hc : c ≠ '$' := fun hh => h (by simp [hh])
    rw [List.cons_append, interpolate_cons_ne vars c _ hc, ih (fun hh => h (by simp [hh]))]
    simp

theorem interpolate_braced (vars : Vars) (k : Str) (hk : '}' ∉ k) (rest : Str) :
    vars.Interpolate ('$' :: '{' :: (k ++ '}' :: rest)) =
      vars.GetString k ++ vars.Interpolate rest := by
  have hstop : ∀ c ∈ k, (fun ch => decide (ch = '}')) c = false := by
    intro c hc
    simp only [decide_eq_false_iff_not]
    exact fun hh => hk (hh ▸ hc)
  have hra := readAndAppend_spec (fun ch => ch = '}') k hstop '}' (by simp) rest []
  simp [Vars.Interpolate, hra]

/-- C2: an unresolved key interpolates to the empty string without error,
both alone and directly adjacent to literal text, in a single
left-to-right scan: for every store and every key `k` that is unbound (and
is a key, i.e. contains no closing brace), `interpolate("${k}") = ""` and
`interpolate("prefix_${k}_suffix") = "prefix__suffix"`. -/
theorem interpolate_unbound_empty (vars : Vars) (k : Str)
    (hunbound : vars.GetValue k = none) (hkey : '}' ∉ k) :
    vars.Interpolate ('$' :: '{' :: (k ++ '}' :: [])) = [] ∧
      vars.Interpolate (str "prefix_" ++ '$' :: '{' :: (k ++ '}' :: str "_suffix")) =
        str "prefix__suffix" := by
  have hget : vars.GetString k = [] := by simp [Vars.GetString, hunbound]
  constructor
  · rw [interpolate_braced vars k hkey []]
    simp [hget, Vars.Interpolate]
  · rw [interpolate_lit_append vars (str "prefix_") _ (by decide),
      interpolate_braced vars k hkey (str "_suffix"),
      interpolate_no_dollar vars (str "_suffix") (by decide), hget]
    decide

/-- C2 witness: instantiated at the empty store and the key `NOVAR`. -/
theorem interpolate_unbound_empty_witness :
    Vars.Interpolate [] ('$' :: '{' :: (str "NOVAR" ++ '}' :: [])) = [] ∧
      Vars.Interpolate []
          (str "prefix_" ++ '$' :: '{' :: (str "NOVAR" ++ '}' :: str "_suffix")) =
        str "prefix__suffix" :=
  interpolate_unbound_empty [] (str "NOVAR") rfl (by decide)

/-- C9: a bare `$name` reference terminated by whitespace consumes the
terminating whitespace character: it delimits the key and is not copied to
the output, so the expansion of the key is directly followed by the
interpolation of the text after the whitespace. -/
theorem interpolate_bare_consumes_space (vars : Vars) (c0 : Char) (nameRest : Str)
    (w : Char) (rest : Str) (h0 : c0 ≠ '$') (h1 : c0 ≠ '{')
    (hname : ∀ c ∈ nameRest, isSpaceChar c = false) (hw : isSpaceChar w = true) :
    vars.Interpolate ('$' :: c0 :: (nameRest ++ w :: rest)) =
      vars.GetString (c0 :: nameRest) ++ vars.Interpolate rest := by
  have hra := readAndAppend_spec isSpaceChar nameRest hname w hw rest [c0]
  simp [Vars.Interpolate, h0, h1, hra]

/-- C9 witness: with `A` bound to `x`, interpolating `$A B` yields `xB`,
not `x B`. -/
theorem interpolate_bare_consumes_space_witness :
    Vars.Interpolate [(str "A", MakeVar OpEq (str "x"))] (str "$A B") = str "xB" := by
  have h := interpolate_bare_consumes_space [(str "A", MakeVar OpEq (str "x"))]
    'A' [] ' ' ['B'] (by decide) (by decide) (by simp) (by decide)
  simp only [List.nil_append] at h
  refine Eq.trans ?_ (h.trans ?_)
  · rfl
  · simp [Vars.GetString, Vars.GetValue, Vars.Get, Vars.Interpolate, str]
    rfl

/-- splitBy splits a string at every character satisfying the predicate;
separators are consumed and empty segments are kept. -/
def splitBy (p : Char → Bool) (s : Str) : List Str :=
  match s with
  | [] => [[]]
  | c :: rest =>
    if p c then [] :: splitBy p rest
    else (c :: (splitBy p rest).headD []) :: (splitBy p rest).tail

/-- fields models Go's `strings.Fields`: the maximal non-empty runs of
non-whitespace characters. -/
def fields (s : Str) : List Str :=
  (splitBy isSpaceChar s).filter (fun f => f ≠ [])

/-- trimSpace models Go's `strings.TrimSpace`: whitespace removed from
both ends. -/
def trimSpace (s : Str) : Str :=
  ((s.dropWhile isSpaceChar).reverse.dropWhile isSpaceChar).reverse

/-- strIndex models Go's `strings.Index`: the first index at which `sub`
occurs in `s`, or `none` (Go's -1) when it does not occur. -/
def strIndex (sub : Str) (s : Str) : Option Nat :=
  match s with
  | [] => if sub = [] then some 0 else none
  | c :: rest =>
    if sub.isPrefixOf (c :: rest) then some 0
    else (strIndex sub rest).map (· + 1)

/-- findOperator models the operator-search loop of `ReadFromReader`: the
operators are tried in the order of the `operators` list and the first one
that occurs anywhere in the line wins, together with the index of its
first occurrence. -/
def findOperator (ops : List Str) (line : Str) : Option (Str × Nat) :=
  match ops with
  | [] => none
  | op :: rest =>
    match strIndex op line with
    | some i => some (op, i)
    | none => findOperator rest line

/-- Vars.Apply applies an operator-tagged right-hand side to a key, from
vars.go: `OpEq` replaces, `OpPlusEq` concatenates onto an existing value
(plain assignment when absent), `OpMinusEq` removes all occurrences from
an existing value (plain assignment when absent). The source panics on any
other operator tag; that case is unreachable from the parser and is
modelled as a no-op. -/
def Vars.Apply (vars : Vars) (key : Str) (rhs : Var) : Vars :=
  match rhs.op with
  | OpEq => vars.Set key rhs
  | OpPlusEq =>
    match vars.Get key with
    | some lhs => vars.Set key (lhs.PlusEq rhs)
    | none => vars.SetValue key rhs.value
  | OpMinusEq =>
    match vars.Get key with
    | some lhs => vars.Set key (lhs.MinusEq rhs)
    | none => vars.SetValue key rhs.value
  | UnknownOp => vars

/-- ParseError is the error built by `ReadFromReader`'s `fail` closure:
`fmt.Errorf("%s:%d - %s", path, lineno, message)`, kept structured. -/
structure ParseError where
  path : Str
  lineno : Nat
  msg : Str
deriving DecidableEq, Repr

/-- processLine is the body of `ReadFromReader`'s scan loop for one input
line: trim; skip blank and `#` lines; search for the first operator of
`operators` occurring in the line; with no operator the line is a bare key
assigned `"true"`; an operator at index 0 is an error; otherwise the text
before the operator index must be a single token (the key) and the text
after it is interpolated against the current store and applied. -/
def processLine (path : Str) (lineno : Nat) (vars : Vars) (rawLine : Str) :
    Except ParseError Vars :=
  if trimSpace rawLine = [] then .ok vars
  else if (trimSpace rawLine).head? = some '#' then .ok vars
  else
    match findOperator operators (trimSpace rawLine) with
    | none =>
      .ok (vars.Apply (trimSpace (trimSpace rawLine))
        (MakeVar (OpFromString (str "=")) (str "true")))
    | some (op, idx) =>
      if idx = 0 then
        .error ⟨path, lineno, str "malformed line, no variable name before " ++ op⟩
      else
        if (fields (trimSpace ((trimSpace rawLine).take idx))).length ≠ 1 then
          .error ⟨path, lineno, str "malformed line, variable names may not contain spaces"⟩
        else
          .ok (vars.Apply (trimSpace ((trimSpace rawLine).take idx))
            (MakeVar (OpFromString op)
              (vars.Interpolate (trimSpace ((trimSpace rawLine).drop (idx + 1))))))

/-- processLinesFrom folds `processLine` over the remaining input lines,
numbering them from `lineno + 1` and stopping at the first error. -/
def processLinesFrom (path : Str) (lineno : Nat) (vars : Vars) (lines : List Str) :
    Except ParseError Vars :=
  match lines with
  | [] => .ok vars
  | l :: rest =>
    match processLine path (lineno + 1) vars l with
    | .error e => .error e
    | .ok v => processLinesFrom path (lineno + 1) v rest

/-- ReadFromReader parses a .dmake configuration, from vars.go: the store
is seeded with `OS` and `ARCH` (the host values `runtime.GOOS` and
`runtime.GOARCH` are the `goos`/`goarch` parameters) before the first line
is read, then each line is processed in order. -/
def ReadFromReader (path goos goarch : Str) (vars : Vars) (lines : List Str) :
    Except ParseError Vars :=
  processLinesFrom path 0 ((vars.SetValue (str "OS") goos).SetValue (str "ARCH") goarch) lines

/-- C1: evaluation of the parser on a `+=` line. Because `operators` is
searched in the order `=`, `+=`, `-=` and `=` occurs inside `+=`, the
first-occurrence search always selects `=`; on `CFLAGS += -g` the split at
the `=` leaves `CFLAGS +` as the key, which fails the single-token check,
so the line is rejected as malformed instead of appending to `CFLAGS`. -/
theorem plusEq_line_is_parse_error :
    ReadFromReader (str ".dmake") (str "linux") (str "amd64") []
        [str "CFLAGS = -O2", str "CFLAGS += -g"] =
      .error ⟨str ".dmake", 2, str "malformed line, variable names may not contain spaces"⟩ := by
  simp [ReadFromReader, processLinesFrom, processLine, findOperator, strIndex, operators,
    trimSpace, fields, splitBy, str, Vars.Apply, OpFromString, MakeVar, Vars.SetValue,
    Vars.Set, Vars.Get, isSpaceChar, Vars.Interpolate, readAndAppend, Vars.GetString,
    Vars.GetValue]

theorem get_set_ne (vars : Vars) (key k : Str) (v : Var) (h : k ≠ key) :
    (vars.Set key v).Get k = vars.Get k := by
  induction vars with
  | nil => simp [Vars.Set, Vars.Get, Ne.symm h]
  | cons p rest ih =>
    obtain ⟨k2, w⟩ := p
    by_cases hk : k2 = key
    · subst hk
      simp [Vars.Set, Vars.Get, Ne.symm h]
    · simp [Vars.Set, Vars.Get, hk, ih]

theorem get_set_same (vars : Vars) (key : Str) (v : Var) :
    (vars.Set key v).Get key = some v := by
  induction vars with
  | nil => simp [Vars.Set, Vars.Get]
  | cons p rest ih =>
    obtain ⟨k2, w⟩ := p
    by_cases hk : k2 = key
    · subst hk
      simp [Vars.Set, Vars.Get]
    · simp [Vars.Set, Vars.Get, hk, ih]

theorem apply_get_ne (vars : Vars) (key k : Str) (rhs : Var) (h : k ≠ key) :
    (vars.Apply key rhs).Get k = vars.Get k := by
  unfold Vars.Apply
  cases rhs.op <;> cases hg : vars.Get key <;>
    simp [hg, Vars.SetValue, get_set_ne vars key k _ h]

/-- lineKey is the key a configuration line would be applied to, derived
from the same parsing steps as `processLine`; `none` for skipped or
malformed lines. -/
def lineKey (rawLine : Str) : Option Str :=
  if trimSpace rawLine = [] then none
  else if (trimSpace rawLine).head? = some '#' then none
  else
    match findOperator operators (trimSpace rawLine) with
    | none => some (trimSpace (trimSpace rawLine))
    | some (_, idx) => if idx = 0 then none else some (trimSpace ((trimSpace rawLine).take idx))

theorem processLine_preserves (path : Str) (n : Nat) (vars : Vars) (l : Str) (v : Vars)
    (k : Str) (hk : lineKey l ≠ some k) (hok : processLine path n vars l = .ok v) :
    v.Get k = vars.Get k := by
  unfold processLine at hok
  unfold lineKey at hk
  by_cases h1 : trimSpace l = []
  · simp only [h1, if_true] at hok
    cases hok
    rfl
  · simp only [h1, if_false] at hok hk
    by_cases h2 : (trimSpace l).head? = some '#'
    · simp only [h2, if_true] at hok
      cases hok
      rfl
    · simp only [h2, if_false] at hok hk
      cases hf : findOperator operators (trimSpace l) with
      | none =>
        simp only [hf] at hok hk
        cases hok
        exact apply_get_ne _ _ _ _ (fun he => hk (by rw [he]))
      | some p =>
        obtain ⟨op, idx⟩ := p
        simp only [hf] at hok hk
        by_cases h3 : idx = 0
        · simp only [h3, if_true] at hok
          cases hok
        · simp only [h3, if_false] at hok hk
          by_cases h4 : (fields (trimSpace ((trimSpace l).take idx))).length ≠ 1
          · rw [if_pos h4] at hok
            cases hok
          · rw [if_neg h4] at hok
            cases hok
            exact apply_get_ne _ _ _ _ (fun he => hk (by rw [he]))

theorem processLinesFrom_preserves (path : Str) (k : Str) :
    ∀ (lines : List Str) (n : Nat) (vars v : Vars),
      (∀ l ∈ lines, lineKey l ≠ some k) →
      processLinesFrom path n vars lines = .ok v → v.Get k = vars.Get k := by
  intro lines
  induction lines with
  | nil =>
    intro n vars v _ hok
    cases hok
    rfl
  | cons l rest ih =>
    intro n vars v hno hok
    unfold processLinesFrom at hok
    cases hl : processLine path (n + 1) vars l with
    | error e => simp [hl] at hok
    | ok v1 =>
      simp only [hl] at hok
      have h1 := processLine_preserves path (n + 1) vars l v1 k (hno l (by simp)) hl
      have h2 := ih (n + 1) v1 v (fun x hx => hno x (by simp [hx])) hok
      rw [h2, h1]

/-- C8 counterexample: with host values `linux`/`amd64`, parsing the
single-line file `OS = zzz` succeeds and leaves `OS` bound to `zzz`, not
to the pre-seeded host value: configuration lines can change `OS`. -/
theorem os_reassigned_by_config_line :
    (ReadFromReader (str ".dmake") (str "linux") (str "amd64") [] [str "OS = zzz"]).map
        (fun v => v.GetString (str "OS")) = .ok (str "zzz") ∧
      str "zzz" ≠ str "linux" := by
  constructor
  · simp [ReadFromReader, processLinesFrom, processLine, findOperator, strIndex, operators,
      trimSpace, fields, splitBy, str, Vars.Apply, OpFromString, MakeVar, Vars.SetValue,
      Vars.Set, Vars.Get, isSpaceChar, Vars.Interpolate, readAndAppend, Vars.GetString,
      Vars.GetValue, Except.map]
  · decide

/-- C8 (amended): `OS` and `ARCH` are pre-populated with the host platform
name and architecture before the first configuration line is read, and
they keep those values after parsing any file in which no line assigns to
`OS` or `ARCH`; they are not read-only — an assignment line replaces them
(see the counterexample). -/
theorem os_arch_preseeded (path goos goarch : Str) (vars : Vars) (lines : List Str)
    (v : Vars) (hno : ∀ l ∈ lines, lineKey l ≠ some (str "OS") ∧ lineKey l ≠ some (str "ARCH"))
    (hok : ReadFromReader path goos goarch vars lines = .ok v) :
    v.GetValue (str "OS") = some goos ∧ v.GetValue (str "ARCH") = some goarch := by
  unfold ReadFromReader at hok
  have hos := processLinesFrom_preserves path (str "OS") lines 0 _ v
    (fun l hl => (hno l hl).1) hok
  have harch := processLinesFrom_preserves path (str "ARCH") lines 0 _ v
    (fun l hl => (hno l hl).2) hok
  rw [Vars.GetValue, hos, Vars.GetValue, harch]
  constructor
  · rw [Vars.SetValue, Vars.SetValue, get_set_ne _ _ _ _ (by decide), get_set_same]
    rfl
  · rw [Vars.SetValue, Vars.SetValue, get_set_same]
    rfl

/-- C8 witness: parsing the one-line file `CC = gcc` with host values
`linux`/`amd64` leaves `OS` and `ARCH` at the pre-seeded host values. -/
theorem os_arch_preseeded_witness :
    Vars.GetValue
        [(str "OS", MakeVar OpEq (str "linux")), (str "ARCH", MakeVar OpEq (str "amd64")),
          (str "CC", MakeVar OpEq (str "gcc"))] (str "OS") = some (str "linux") ∧
      Vars.GetValue
          [(str "OS", MakeVar OpEq (str "linux")), (str "ARCH", MakeVar OpEq (str "amd64")),
            (str "CC", MakeVar OpEq (str "gcc"))] (str "ARCH") = some (str "amd64") :=
  os_arch_preseeded (str ".dmake") (str "linux") (str "amd64") [] [str "CC = gcc"] _
    (by decide)
    (by simp [ReadFromReader, processLinesFrom, processLine, findOperator, strIndex,
      operators, trimSpace, fields, splitBy, str, Vars.Apply, OpFromString, MakeVar,
      Vars.SetValue, Vars.Set, Vars.Get, isSpaceChar, Vars.Interpolate, readAndAppend,
      Vars.GetString, Vars.GetValue])

/-- OutputType is the build-product kind, from the `OutputType` enum
(the variant with `PluginOutputType`, used by the orchestrator). -/
inductive OutputType where
  | UnknownOutputType
  | DllOutputType
  | PluginOutputType
  | ExeOutputType
  | LibOutputType
deriving DecidableEq, Repr

open OutputType

/-- OutputType.toStr is the source's `String()` method on `OutputType`. -/
def OutputType.toStr : OutputType → Str
  | UnknownOutputType => str "unknown"
  | DllOutputType => str "dll"
  | PluginOutputType => str "plugin"
  | ExeOutputType => str "exe"
  | LibOutputType => str "lib"

/-- SourceLanguage is the source-language enum, `Language` in the source
(renamed here because Mathlib already declares `Language`); the
constructors keep their source names. -/
inductive SourceLanguage where
  | UnknownLanguage
  | CLanguage
  | CplusplusLanguage
  | ObjcLanguage
  | ObjcplusplusLanguage
deriving DecidableEq, Repr

open SourceLanguage

/-- Dmake is the per-directory build descriptor, from `type Dmake struct`
(the `installprefix` and bookkeeping fields are carried as plain data). -/
structure Dmake where
  sourceFiles : List Str
  outputtype : OutputType
  outputname : Str
  outputnameDefaulted : Bool
  defaultoutput : Str
  installpfx : Str
  directories : List Str
deriving DecidableEq, Repr

/-- checkVar is the closure of the same name inside `InitFromVars`: when
the given variable is defined, a conflicting already-set output type is an
error (the descriptor is left untouched), otherwise the output type and
name are set. As in the source, the error message interpolates the
variable's value (the source shadows `name` with the looked-up value). -/
def checkVar (vars : Vars) (dmake : Dmake) (name : Str) (outputtype : OutputType)
    (fn : Str → Str) : Dmake × Option Str :=
  match vars.GetValue name with
  | none => (dmake, none)
  | some value =>
    if dmake.outputtype ≠ UnknownOutputType ∧ dmake.outputtype ≠ outputtype then
      (dmake, some (value ++ str " definition conflicts with " ++ dmake.outputtype.toStr))
    else
      ({ dmake with outputtype := outputtype, outputname := fn value }, none)

/-- checkVarsChain runs `checkVar` over a list of (variable, kind, naming
function) entries in order, stopping at the first error, as the body of
`InitFromVars` does for `DLL`, `PLUGIN`, `EXE`, `LIB`. -/
def checkVarsChain (vars : Vars) (dmake : Dmake) :
    List (Str × OutputType × (Str → Str)) → Dmake × Option Str
  | [] => (dmake, none)
  | (name, t, fn) :: rest =>
    match checkVar vars dmake name t fn with
    | (d2, none) => checkVarsChain vars d2 rest
    | (d2, some e) => (d2, some e)

/-- InitFromVarsOutput is the output-type portion of `InitFromVars`: the
four `checkVar` calls for `DLL`, `PLUGIN`, `EXE` and `LIB`, in source
order, each aborting on error. The preceding `SRCS`/`PREFIX`/`DIRS`
handling reads the filesystem and never touches the output type, so it is
outside this definition; the platform naming methods are the `fn`
parameters. -/
def InitFromVarsOutput (vars : Vars) (dllFn pluginFn exeFn libFn : Str → Str)
    (dmake : Dmake) : Dmake × Option Str :=
  checkVarsChain vars dmake
    [(str "DLL", DllOutputType, dllFn), (str "PLUGIN", PluginOutputType, pluginFn),
      (str "EXE", ExeOutputType, exeFn), (str "LIB", LibOutputType, libFn)]

theorem checkVarsChain_keeps_type (vars : Vars) (t : OutputType)
    (ht : t ≠ UnknownOutputType) :
    ∀ (specs : List (Str × OutputType × (Str → Str))) (dmake : Dmake),
      dmake.outputtype = t →
      (checkVarsChain vars dmake specs).1.outputtype = t ∧
        ((∃ s ∈ specs, vars.GetValue s.1 ≠ none ∧ s.2.1 ≠ t) →
          ∃ e, (checkVarsChain vars dmake specs).2 = some e) := by
  intro specs
  induction specs with
  | nil =>
    intro dmake hd
    refine ⟨hd, ?_⟩
    rintro ⟨s, hs, -⟩
    cases hs
  | cons spec rest ih =>
    intro dmake hd
    obtain ⟨name, t2, fn⟩ := spec
    cases hget : vars.GetValue name with
    | none =>
      have hcv : checkVar vars dmake name t2 fn = (dmake, none) := by
        simp [checkVar, hget]
      have ih2 := ih dmake hd
      constructor
      · simpa [checkVarsChain, hcv] using ih2.1
      · rintro ⟨s, hs, hval, hne⟩
        rcases List.mem_cons.mp hs with hs1 | hs2
        · rw [hs1] at hval
          exact absurd hget hval
        · simpa [checkVarsChain, hcv] using ih2.2 ⟨s, hs2, hval, hne⟩
    | some value =>
      by_cases hconf : t2 = t
      · have hcv : checkVar vars dmake name t2 fn =
            ({ dmake with outputtype := t2, outputname := fn value }, none) := by
          simp only [checkVar, hget]
          rw [if_neg]
          simp [hd, hconf]
        have ih2 := ih { dmake with outputtype := t2, outputname := fn value }
          (by simp [hconf])
        constructor
        · simpa [checkVarsChain, hcv] using ih2.1
        · rintro ⟨s, hs, hval, hne⟩
          rcases List.mem_cons.mp hs with hs1 | hs2
          · rw [hs1] at hne
            exact absurd hconf hne
          · simpa [checkVarsChain, hcv] using ih2.2 ⟨s, hs2, hval, hne⟩
      · have hcv : checkVar vars dmake name t2 fn =
            (dmake, some (value ++ str " definition conflicts with " ++
              dmake.outputtype.toStr)) := by
          simp only [checkVar, hget]
          rw [if_pos]
          exact ⟨hd ▸ ht, fun hh => hconf ((hd ▸ hh : t = t2)).symm⟩
        have hres : checkVarsChain vars dmake ((name, t2, fn) :: rest) =
            (dmake, some (value ++ str " definition conflicts with " ++
              dmake.outputtype.toStr)) := by
          simp [checkVarsChain, hcv]
        exact ⟨by simp [hres, hd],
          fun _ => ⟨value ++ str " definition conflicts with " ++ dmake.outputtype.toStr,
            by simp [hres]⟩⟩

/-- C3: once the descriptor's output type is set (not Unknown), a
configuration variable declaring a different output kind makes
`InitFromVars` return an error, and the previously set output type is
unchanged in the returned descriptor. -/
theorem initFromVars_conflict_is_error (vars : Vars) (dllFn pluginFn exeFn libFn : Str → Str)
    (dmake : Dmake) (hset : dmake.outputtype ≠ UnknownOutputType)
    (hconf : (vars.GetValue (str "DLL") ≠ none ∧ dmake.outputtype ≠ DllOutputType) ∨
      (vars.GetValue (str "PLUGIN") ≠ none ∧ dmake.outputtype ≠ PluginOutputType) ∨
      (vars.GetValue (str "EXE") ≠ none ∧ dmake.outputtype ≠ ExeOutputType) ∨
      (vars.GetValue (str "LIB") ≠ none ∧ dmake.outputtype ≠ LibOutputType)) :
    (∃ e, (InitFromVarsOutput vars dllFn pluginFn exeFn libFn dmake).2 = some e) ∧
      (InitFromVarsOutput vars dllFn pluginFn exeFn libFn dmake).1.outputtype =
        dmake.outputtype := by
  have h := checkVarsChain_keeps_type vars dmake.outputtype hset
    [(str "DLL", DllOutputType, dllFn), (str "PLUGIN", PluginOutputType, pluginFn),
      (str "EXE", ExeOutputType, exeFn), (str "LIB", LibOutputType, libFn)] dmake rfl
  refine ⟨h.2 ?_, h.1⟩
  rcases hconf with ⟨hv, hne⟩ | ⟨hv, hne⟩ | ⟨hv, hne⟩ | ⟨hv, hne⟩
  · exact ⟨(str "DLL", DllOutputType, dllFn), by simp, hv, fun hh => hne hh.symm⟩
  · exact ⟨(str "PLUGIN", PluginOutputType, pluginFn), by simp, hv, fun hh => hne hh.symm⟩
  · exact ⟨(str "EXE", ExeOutputType, exeFn), by simp, hv, fun hh => hne hh.symm⟩
  · exact ⟨(str "LIB", LibOutputType, libFn), by simp, hv, fun hh => hne hh.symm⟩

/-- C3 witness: a descriptor already set to a static library, with a
config file defining `EXE`, errors and keeps the Lib type. -/
theorem initFromVars_conflict_is_error_witness :
    (∃ e, (InitFromVarsOutput [(str "EXE", MakeVar OpEq (str "prog"))] id id id id
        ⟨[], LibOutputType, str "x", false, str "x", [], []⟩).2 = some e) ∧
      (InitFromVarsOutput [(str "EXE", MakeVar OpEq (str "prog"))] id id id id
        ⟨[], LibOutputType, str "x", false, str "x", [], []⟩).1.outputtype =
        LibOutputType :=
  initFromVars_conflict_is_error [(str "EXE", MakeVar OpEq (str "prog"))] id id id id
    ⟨[], LibOutputType, str "x", false, str "x", [], []⟩ (by decide)
    (Or.inr (Or.inr (Or.inl ⟨by decide, by decide⟩)))

/-- Directories is the directory walker from the orchestrator: for each
listed directory it saves the current working directory, changes into the
directory (`ChangeDirectory`, modelled by the abstract `chdir` function
and assumed to succeed), runs a fresh per-directory orchestrator
invocation (the abstract `run`, modelled as leaving the working directory
unchanged and possibly returning an error), and then calls
`savedCwd.Restore()` — except that, exactly as in the source, a failing
run with the keep-going flag off returns at once, before the `Restore`
call. In keep-going mode the first error is retained as the
representative result. The state threaded through is the process-wide
current working directory; the result is the final working directory and
the returned error. -/
def Directories (keepgoing : Bool) (chdir : Str → Str → Str) (run : Str → Option Str) :
    List Str → Str → Option Str → Str × Option Str
  | [], cwd, result => (cwd, result)
  | path :: rest, cwd, result =>
    let cwd1 := chdir cwd path
    match run path with
    | some e =>
      if keepgoing then
        Directories keepgoing chdir run rest cwd (if result = none then some e else result)
      else (cwd1, some e)
    | none => Directories keepgoing chdir run rest cwd result

/-- C4: evaluation of the walker at a failing directory in
stop-on-first-error mode. The per-directory run fails, the walker
returns at once, and the final working directory is the entered
directory `sub`, not the saved directory `top`: the early return in
`Directories` skips `savedCwd.Restore()`, so the prior working directory
is not restored on that exit path. -/
theorem directories_error_exit_skips_restore :
    Directories false (fun _ dir => dir) (fun _ => some (str "dcc failed")) [str "sub"]
        (str "top") none =
      (str "sub", some (str "dcc failed")) ∧ str "sub" ≠ str "top" := by
  constructor
  · rfl
  · decide

/-- languageExtension is the per-language default glob pattern table from
util.go, listed in its source (insertion) order. In the source this is a
Go map, so its iteration order is unspecified. -/
def languageExtension : List (SourceLanguage × List Str) :=
  [(CplusplusLanguage, [str "*.cpp", str "*.cc", str "*.cxx", str "*.c++"]),
    (CLanguage, [str "*.c"]),
    (ObjcLanguage, [str "*.m"]),
    (ObjcplusplusLanguage, [str "*.mm"])]

/-- firstGlobMatch is the inner loop of `SourceFiles`: the first pattern
of a family whose (platform-filtered) glob result is non-empty wins.
`globFn` models `Glob`'s result for a pattern in the current directory,
after the other-platforms filtering. -/
def firstGlobMatch (globFn : Str → List Str) : List Str → Option (List Str)
  | [] => none
  | p :: ps => if globFn p ≠ [] then some (globFn p) else firstGlobMatch globFn ps

/-- SourceFiles is the default source discovery from util.go. The source
iterates over the Go map `languageExtension` with `for lang, patterns :=
range ...`; because Go map iteration order is unspecified, the visit
order is a parameter here, ranging over the permutations of
`languageExtension`. The first family (in visit order) with any matching
pattern is returned; when the `-lang` flag is set it overrides the
reported language. -/
def SourceFiles (langflag : SourceLanguage) (globFn : Str → List Str) :
    List (SourceLanguage × List Str) → List Str × SourceLanguage
  | [] => ([], UnknownLanguage)
  | (lang, patterns) :: rest =>
    match firstGlobMatch globFn patterns with
    | some paths => (paths, if langflag ≠ UnknownLanguage then langflag else lang)
    | none => SourceFiles langflag globFn rest

/-- C5: evaluation of `SourceFiles` under a legal Go map iteration order
that visits the C family before the C++ family, in a directory where both
`*.c` and `*.cpp` match: the C family is selected even though a C++
pattern matches, so the C++-first fixed priority does not hold. The first
conjunct certifies that the visit order is a permutation of
`languageExtension`, i.e. a possible Go map iteration. -/
theorem sourceFiles_order_dependent :
    List.Perm
        [(CLanguage, [str "*.c"]),
          (CplusplusLanguage, [str "*.cpp", str "*.cc", str "*.cxx", str "*.c++"]),
          (ObjcLanguage, [str "*.m"]),
          (ObjcplusplusLanguage, [str "*.mm"])]
        languageExtension ∧
      SourceFiles UnknownLanguage
          (fun p => if p = str "*.c" then [str "a.c"]
            else if p = str "*.cpp" then [str "b.cpp"] else [])
          [(CLanguage, [str "*.c"]),
            (CplusplusLanguage, [str "*.cpp", str "*.cc", str "*.cxx", str "*.c++"]),
            (ObjcLanguage, [str "*.m"]),
            (ObjcplusplusLanguage, [str "*.mm"])] =
        ([str "a.c"], CLanguage) ∧
      (fun p => if p = str "*.c" then [str "a.c"]
        else if p = str "*.cpp" then [str "b.cpp"] else []) (str "*.cpp") ≠ [] := by
  refine ⟨?_, by rfl, by decide⟩
  decide

/-- InitAction is `dmake init` from the orchestrator, restricted to its
filesystem-visible skeleton: the three existence guards for `.dcc`,
`.dmake` and `Makefile`, run in that order before anything else. The
filesystem is modelled by the existence predicate `fsExists`
(`os.Stat(...) == nil`); everything after the guards (argument parsing
and artifact creation) is the `rest` continuation, which receives the
unchanged filesystem and may transform it. Returning the untouched
`fsExists` on the guard paths expresses that no file has been created or
modified when the guard error is returned. -/
def InitAction (fsExists : Str → Bool)
    (rest : (Str → Bool) → (Str → Bool) × Except Str Unit) :
    (Str → Bool) × Except Str Unit :=
  if fsExists (str ".dcc") then
    (fsExists, .error (str "a .dcc directory already exists, not continuing"))
  else if fsExists (str ".dmake") then
    (fsExists, .error (str "a .dmake file already exists, not continuing"))
  else if fsExists (str "Makefile") then
    (fsExists, .error (str "a Makefile already exists, not continuing"))
  else rest fsExists

/-- C6: if any of the three well-known artifacts (`.dcc` options
directory, `.dmake` configuration file, `Makefile` build-driver file)
already exists, `InitAction` returns an error with the filesystem exactly
as it was, whatever the rest of the init flow would have done: the guard
fails before creating or modifying any file. Since a successful init
always creates `.dcc`, a second invocation in the same directory
satisfies this hypothesis and therefore fails immediately, modifying
nothing. -/
theorem initAction_guard_precedes_writes (fsExists : Str → Bool)
    (rest : (Str → Bool) → (Str → Bool) × Except Str Unit)
    (h : fsExists (str ".dcc") = true ∨ fsExists (str ".dmake") = true ∨
      fsExists (str "Makefile") = true) :
    ∃ e, InitAction fsExists rest = (fsExists, .error e) := by
  unfold InitAction
  by_cases h1 : fsExists (str ".dcc") = true
  · exact ⟨str "a .dcc directory already exists, not continuing", by simp [h1]⟩
  · by_cases h2 : fsExists (str ".dmake") = true
    · exact ⟨str "a .dmake file already exists, not continuing", by simp [h1, h2]⟩
    · by_cases h3 : fsExists (str "Makefile") = true
      · exact ⟨str "a Makefile already exists, not continuing", by simp [h1, h2, h3]⟩
      · rcases h with h | h | h
        · exact absurd h h1
        · exact absurd h h2
        · exact absurd h h3

/-- C6 witness: a directory already holding a `.dmake` file makes the
guard fail with the filesystem untouched, for a `rest` that would have
created files. -/
theorem initAction_guard_precedes_writes_witness :
    ∃ e, InitAction (fun p => p == str ".dmake")
        (fun _ => (fun p => p == str ".dcc", Except.ok ())) =
      (fun p => p == str ".dmake", .error e) :=
  initAction_guard_precedes_writes (fun p => p == str ".dmake")
    (fun _ => (fun p => p == str ".dcc", Except.ok ())) (Or.inr (Or.inl (by decide)))

/-- dropSpaceTab drops the leading run of spaces and tabs, the `[ \t]*`
pieces of the main-function regular expression. -/
def dropSpaceTab (s : Str) : Str := s.dropWhile (fun c => c = ' ' || c = '\t')

/-- matchMainAfterGroup checks `[ \t]*main[ \t]*\(` at the start of `t`;
the regular expression's final group `(void|int|)` has an empty
alternative and therefore always matches after the `(`. -/
def matchMainAfterGroup (t : Str) : Bool :=
  (str "main").isPrefixOf (dropSpaceTab t) &&
    ((dropSpaceTab ((dropSpaceTab t).drop 4)).head? = some '(')

/-- matchesMainFunctionRegexp decides util.go's anchored regular
expression `^[ \t]*(func|int)?[ \t]*main[ \t]*\((void|int|)` on one line:
after the leading space/tab run the optional group is `func`, `int`, or
empty, and each alternative is followed by `[ \t]*main[ \t]*\(`. A
non-maximal munch of the leading `[ \t]*` can only succeed through the
empty group alternative, which the maximal munch also covers, so trying
the three group alternatives after the maximal munch is equivalent to the
regular expression's existential semantics. -/
def matchesMainFunctionRegexp (line : Str) : Bool :=
  matchMainAfterGroup (dropSpaceTab line) ||
    ((str "func").isPrefixOf (dropSpaceTab line) &&
      matchMainAfterGroup ((dropSpaceTab line).drop 4)) ||
    ((str "int").isPrefixOf (dropSpaceTab line) &&
      matchMainAfterGroup ((dropSpaceTab line).drop 3))

example : matchesMainFunctionRegexp (str "int main(int argc, char **argv)") = true := by
  decide

example : matchesMainFunctionRegexp (str "  main  (void)") = true := by decide

example : matchesMainFunctionRegexp (str "int domain(int x)") = false := by decide

/-- DefinesMain is util.go's main-detection predicate: open the file and
scan its lines for the main-function regular expression. The filesystem
is modelled by `fs`, mapping a path to its lines, or to `none` when the
file cannot be opened; in that case the source logs the error and
returns `false` instead of propagating it. -/
def DefinesMain (fs : Str → Option (List Str)) (path : Str) : Bool :=
  match fs path with
  | none => false
  | some lines => lines.any matchesMainFunctionRegexp

/-- DetermineOutputType is the module-kind inference from the
orchestrator: executable as soon as some source file defines `main`,
otherwise dll / plugin / static library according to the flags. -/
def DetermineOutputType (dllflag pluginflag : Bool) (fs : Str → Option (List Str))
    (sourceFiles : List Str) : OutputType :=
  if sourceFiles.any (DefinesMain fs) then ExeOutputType
  else if dllflag then DllOutputType
  else if pluginflag then PluginOutputType
  else LibOutputType

/-- C10: an unopenable candidate source file makes `DefinesMain` return
`false` rather than an error, so output-type inference always produces a
type, and the executable kind can only be inferred from a readable file
that matches the main-function heuristic: unreadable files never cause
the executable inference. -/
theorem definesMain_unreadable_is_false (fs : Str → Option (List Str)) (path : Str)
    (files : List Str) (dllflag pluginflag : Bool) (hunread : fs path = none) :
    DefinesMain fs path = false ∧
      (DetermineOutputType dllflag pluginflag fs files = ExeOutputType →
        ∃ f ∈ files, (fs f).isSome ∧ DefinesMain fs f = true) := by
  constructor
  · simp [DefinesMain, hunread]
  · intro hexe
    unfold DetermineOutputType at hexe
    by_cases hany : files.any (DefinesMain fs) = true
    · obtain ⟨f, hf, hdef⟩ := List.any_eq_true.mp hany
      refine ⟨f, hf, ?_, hdef⟩
      cases hfs : fs f with
      | none => rw [DefinesMain, hfs] at hdef; cases hdef
      | some lines => rfl
    · rw [if_neg hany] at hexe
      by_cases hdll : dllflag = true
      · rw [if_pos hdll] at hexe; cases hexe
      · rw [if_neg hdll] at hexe
        by_cases hplg : pluginflag = true
        · rw [if_pos hplg] at hexe; cases hexe
        · rw [if_neg hplg] at hexe; cases hexe

/-- C10 witness: with every file unreadable, `DefinesMain` is false and
the inferred type is the static library, not the executable. -/
theorem definesMain_unreadable_is_false_witness :
    DefinesMain (fun _ => none) (str "a.c") = false ∧
      (DetermineOutputType false false (fun _ => none) [str "a.c"] = ExeOutputType →
        ∃ f ∈ [str "a.c"], ((fun (_ : Str) => (none : Option (List Str))) f).isSome ∧
          DefinesMain (fun _ => none) f = true) :=
  definesMain_unreadable_is_false (fun _ => none) (str "a.c") [str "a.c"] false false rfl

/-- splitSlash splits a path at every `/`, keeping empty segments. -/
def splitSlash (s : Str) : List Str := splitBy (fun c => c = '/') s

/-- comps is the component list of a path: the non-empty, non-`.`
segments. Go's `filepath.Clean` skips empty and `.` components while
copying; this is the component view of its input scan. -/
def comps (s : Str) : List Str :=
  (splitSlash s).filter (fun c => ¬(c = [] ∨ c = ['.']))

/-- pushComp is one step of `filepath.Clean`'s backtracking: a `..`
component pops a poppable component, is dropped at the root of a rooted
path, and is kept (stacked) when a relative path has nothing to pop; any
other component is pushed. The stack is kept most-recent-first. -/
def pushComp (rooted : Bool) (stack : List Str) (c : Str) : List Str :=
  if c = ['.', '.'] then
    match stack with
    | [] => if rooted then [] else [['.', '.']]
    | top :: rest => if top = ['.', '.'] then c :: top :: rest else rest
  else c :: stack

/-- normComps processes a component list left to right with `pushComp`,
returning the surviving components in path order. -/
def normComps (rooted : Bool) (cs : List Str) : List Str :=
  (cs.foldl (pushComp rooted) []).reverse

/-- renderStack joins components with `/`. -/
def renderStack : List Str → Str
  | [] => []
  | [c] => c
  | c :: rest => c ++ '/' :: renderStack rest

/-- renderPath renders a cleaned path from its rootedness and surviving
components: a rooted path gets the leading `/` (just `/` when no
components survive), a relative path with no components renders as `.`. -/
def renderPath (rooted : Bool) (stack : List Str) : Str :=
  if rooted then '/' :: renderStack stack
  else if stack = [] then ['.'] else renderStack stack

/-- isRootedPath tests whether a path is rooted (starts with `/`). -/
def isRootedPath (path : Str) : Bool := path.head? = some '/'

/-- cleanPath models Go's `filepath.Clean` for Unix separators: the empty
path cleans to `.`; otherwise the path is rooted iff it starts with `/`,
its components are normalised with the `..` backtracking rules, and the
result is rendered back. -/
def cleanPath (path : Str) : Str :=
  if path = [] then ['.']
  else renderPath (isRootedPath path) (normComps (isRootedPath path) (comps path))

/-- baseName models Go's `filepath.Base` for Unix separators: `.` for the
empty path, trailing slashes stripped, `/` when the path is entirely
separators, otherwise the last element. -/
def baseName (path : Str) : Str :=
  if path = [] then ['.']
  else
    let t := ((path.reverse.dropWhile (fun c => c = '/'))).reverse
    if t = [] then ['/']
    else (t.reverse.takeWhile (fun c => ¬(c = '/'))).reverse

/-- dirPart is the prefix of a path up to and including its last `/`
(empty when there is no `/`): `path[:i+1]` in Go's `filepath.Dir`. -/
def dirPart (path : Str) : Str :=
  (path.reverse.dropWhile (fun c => ¬(c = '/'))).reverse

/-- dirName models Go's `filepath.Dir` for Unix separators: `Clean` of
everything up to and including the last separator. -/
def dirName (path : Str) : Str := cleanPath (dirPart path)

/-- joinPath models Go's `filepath.Join` on two elements: empty elements
are skipped, and the result is cleaned; all-empty input yields the empty
path, uncleaned. -/
def joinPath (a b : Str) : Str :=
  if a = [] then (if b = [] then [] else cleanPath b)
  else cleanPath (a ++ '/' :: b)

/-- affixName is the prefix/suffix step of `formFilename`: the prefix is
prepended only when non-empty and not already present, then the suffix is
appended only when non-empty and not already present. -/
def affixName (pfx sfx b : Str) : Str :=
  let b1 := if pfx ≠ [] ∧ ¬ pfx.isPrefixOf b then pfx ++ b else b
  if sfx ≠ [] ∧ ¬ sfx.isSuffixOf b1 then b1 ++ sfx else b1

/-- formFilename synthesises an output filename from a prefix part, a
stem and a suffix, from vars.go: split the stem into directory and base,
apply prefix and suffix to the base if not already present, and rejoin. -/
def formFilename (pfx path sfx : Str) : Str :=
  joinPath (dirName path) (affixName pfx sfx (baseName path))

/-- PlatformSpecific is the per-platform naming profile from the source
(the `libprefix`/`dllprefix` fields are spelled `libpfx`/`dllpfx` here;
the `installfile` field, an external-process action, is not part of the
naming model). -/
structure PlatformSpecific where
  objsuffix : Str
  exesuffix : Str
  libpfx : Str
  libsuffix : Str
  dllpfx : Str
  dllsuffix : Str
deriving DecidableEq, Repr

/-- windowsPlatform is the Windows naming profile from the source. -/
def windowsPlatform : PlatformSpecific :=
  ⟨str ".obj", str ".exe", str "", str ".lib", str "", str ".dll"⟩

/-- macosPlatform is the macOS naming profile from the source. -/
def macosPlatform : PlatformSpecific :=
  ⟨str ".o", str "", str "lib", str ".a", str "lib", str ".dylib"⟩

/-- elfPlatform is the generic ELF naming profile from the source. -/
def elfPlatform : PlatformSpecific :=
  ⟨str ".o", str "", str "lib", str ".a", str "lib", str ".so"⟩

/-- PlatformSpecific.LibFilename names a static library, from the source. -/
def PlatformSpecific.LibFilename (p : PlatformSpecific) (path : Str) : Str :=
  formFilename p.libpfx path p.libsuffix

/-- PlatformSpecific.DllFilename names a dynamic library, from the source. -/
def PlatformSpecific.DllFilename (p : PlatformSpecific) (path : Str) : Str :=
  formFilename p.dllpfx path p.dllsuffix

/-- PlatformSpecific.ExeFilename names an executable, from the source. -/
def PlatformSpecific.ExeFilename (p : PlatformSpecific) (path : Str) : Str :=
  formFilename [] path p.exesuffix

/-- PlatformSpecific.ObjFilename names an object file, from the source. -/
def PlatformSpecific.ObjFilename (p : PlatformSpecific) (path : Str) : Str :=
  formFilename [] path p.objsuffix

example : elfPlatform.LibFilename (str "fred") = str "libfred.a" := by decide

example : elfPlatform.LibFilename (str "/") = str "/lib/.a" := by decide

example : elfPlatform.LibFilename (str "/lib/.a") = str "/lib/lib.a" := by decide

/-- C7 counterexample: output-name synthesis is not idempotent for the
static-library kind at the stem `/` on the ELF profile: one application
gives `/lib/.a`, a second gives `/lib/lib.a`. -/
theorem nameFor_not_idempotent_at_root :
    elfPlatform.LibFilename (elfPlatform.LibFilename (str "/")) ≠
      elfPlatform.LibFilename (str "/") := by decide

theorem splitBy_ne_nil (p : Char → Bool) (s : Str) : splitBy p s ≠ [] := by
  cases s with
  | nil => simp [splitBy]
  | cons c rest => by_cases hc : p c <;> simp [splitBy, hc]

theorem splitBy_append_sep (p : Char → Bool) (sep : Char) (hsep : p sep = true) :
    ∀ a b : Str, splitBy p (a ++ sep :: b) = splitBy p a ++ splitBy p b := by
  intro a
  induction a with
  | nil =>
    intro b
    simp [splitBy, hsep]
  | cons c a ih =>
    intro b
    simp only [List.cons_append, splitBy, ih b]
    cases h : splitBy p a with
    | nil => exact absurd h (splitBy_ne_nil p a)
    | cons seg segs => by_cases hc : p c <;> simp [hc, h, ih b]

theorem comps_append_sep (a b : Str) : comps (a ++ '/' :: b) = comps a ++ comps b := by
  unfold comps splitSlash
  rw [splitBy_append_sep _ '/' (by decide) a b, List.filter_append]

theorem splitBy_eq_single (p : Char → Bool) (s : Str) (h : ∀ c ∈ s, p c = false) :
    splitBy p s = [s] := by
  induction s with
  | nil => simp [splitBy]
  | cons c rest ih =>
    have h2 : splitBy p rest = [rest] := ih (fun x hx => h x (by simp [hx]))
    simp [splitBy, h2, h c (by simp)]

theorem comps_sepFree (c : Str) (h : '/' ∉ c) (h1 : c ≠ []) (h2 : c ≠ ['.']) :
    comps c = [c] := by
  unfold comps splitSlash
  rw [splitBy_eq_single _ c (fun x hx => by
    simp only [decide_eq_false_iff_not]
    exact fun he => h (he ▸ hx))]
  simp [h1, h2]

theorem splitBy_mem_sepFree (p : Char → Bool) :
    ∀ (s : Str), ∀ seg ∈ splitBy p s, ∀ c ∈ seg, p c = false := by
  intro s
  induction s with
  | nil =>
    intro seg hseg c hc
    simp only [splitBy, List.mem_singleton] at hseg
    subst hseg
    cases hc
  | cons x rest ih =>
    intro seg hseg c hc
    simp only [splitBy] at hseg
    cases h : splitBy p rest with
    | nil => exact absurd h (splitBy_ne_nil p rest)
    | cons s0 ss =>
      rw [h] at hseg
      by_cases hx : p x
      · rw [if_pos hx] at hseg
        rcases List.mem_cons.mp hseg with heq | hseg2
        · subst heq
          cases hc
        · exact ih seg (h ▸ hseg2) c hc
      · rw [if_neg hx] at hseg
        simp only [List.headD_cons, List.tail_cons] at hseg
        rcases List.mem_cons.mp hseg with heq | hseg2
        · subst heq
          rcases List.mem_cons.mp hc with heq2 | hc2
          · subst heq2
            simpa using hx
          · exact ih s0 (h ▸ List.mem_cons_self s0 ss) c hc2
        · exact ih seg (h ▸ List.mem_cons.mpr (Or.inr hseg2)) c hc

/-- goodStack states that every component on a stack is non-empty, not
`.`, and separator-free — the invariant of `comps` output. -/
def goodStack (st : List Str) : Prop :=
  ∀ c ∈ st, c ≠ [] ∧ c ≠ ['.'] ∧ '/' ∉ c

theorem comps_good (s : Str) : goodStack (comps s) := by
  intro c hc
  unfold comps at hc
  have hmem := List.mem_of_mem_filter hc
  have hpred := List.of_mem_filter hc
  rw [decide_eq_true_eq] at hpred
  push_neg at hpred
  refine ⟨hpred.1, hpred.2, fun hsl => ?_⟩
  have := splitBy_mem_sepFree _ s c hmem '/' hsl
  simp at this

theorem renderStack_append_last (b : Str) :
    ∀ (st : List Str), st ≠ [] → renderStack (st ++ [b]) = renderStack st ++ '/' :: b := by
  intro st
  induction st with
  | nil => intro h; exact absurd rfl h
  | cons c rest ih =>
    intro _
    cases rest with
    | nil => simp [renderStack]
    | cons d rest2 =>
      have ih2 := ih (by simp)
      simp only [List.cons_append] at ih2 ⊢
      simp [renderStack, ih2, List.append_assoc]

theorem comps_renderStack : ∀ (st : List Str), goodStack st → comps (renderStack st) = st
  | [], _ => by simp [renderStack, comps, splitSlash, splitBy]
  | [c], h => by
    have hc := h c (by simp)
    simp only [renderStack]
    exact comps_sepFree c hc.2.2 hc.1 hc.2.1
  | c :: d :: rest, h => by
    have hc := h c (by simp)
    have h1 : renderStack (c :: d :: rest) = c ++ '/' :: renderStack (d :: rest) := by
      simp [renderStack]
    rw [h1, comps_append_sep, comps_sepFree c hc.2.2 hc.1 hc.2.1,
      comps_renderStack (d :: rest) (fun x hx => h x (by simp [List.mem_cons] at hx ⊢; tauto))]
    simp

theorem renderStack_ne_nil (c : Str) (rest : List Str) (hc : c ≠ []) :
    renderStack (c :: rest) ≠ [] := by
  cases rest with
  | nil => simpa [renderStack] using hc
  | cons d rest2 =>
    have h1 : renderStack (c :: d :: rest2) = c ++ '/' :: renderStack (d :: rest2) := by
      simp [renderStack]
    rw [h1]
    simp

theorem renderPath_ne_nil (r : Bool) (st : List Str) (hg : goodStack st) :
    renderPath r st ≠ [] := by
  cases r with
  | true => simp [renderPath]
  | false =>
    cases st with
    | nil => simp [renderPath]
    | cons c rest =>
      have hc := hg c (by simp)
      simp only [renderPath, Bool.false_eq_true, if_false]
      rw [if_neg (by simp)]
      exact renderStack_ne_nil c rest hc.1

theorem renderStack_head (c : Str) (rest : List Str) (hc : c ≠ []) :
    (renderStack (c :: rest)).head? = c.head? := by
  cases rest with
  | nil => simp [renderStack]
  | cons d rest2 =>
    have h1 : renderStack (c :: d :: rest2) = c ++ '/' :: renderStack (d :: rest2) := by
      simp [renderStack]
    rw [h1]
    cases c with
    | nil => exact absurd rfl hc
    | cons x xs => simp

theorem isRootedPath_renderPath (r : Bool) (st : List Str) (hg : goodStack st) :
    isRootedPath (renderPath r st) = r := by
  cases r with
  | true => simp [isRootedPath, renderPath]
  | false =>
    cases st with
    | nil => simp [isRootedPath, renderPath]
    | cons c rest =>
      have hc := hg c (by simp)
      simp only [renderPath, Bool.false_eq_true, if_false]
      rw [if_neg (by simp)]
      rw [isRootedPath, renderStack_head c rest hc.1]
      cases c with
      | nil => exact absurd rfl hc.1
      | cons x xs =>
        have hx : x ≠ '/' := fun he => hc.2.2 (by simp [he])
        simp [hx]

theorem isRootedPath_append (x y : Str) (hx : x ≠ []) :
    isRootedPath (x ++ y) = isRootedPath x := by
  cases x with
  | nil => exact absurd rfl hx
  | cons c rest => simp [isRootedPath]

theorem comps_renderPath (r : Bool) (st : List Str) (hg : goodStack st) :
    comps (renderPath r st) = st := by
  cases r with
  | true =>
    have h1 : renderPath true st = [] ++ '/' :: renderStack st := by simp [renderPath]
    rw [h1, comps_append_sep, comps_renderStack st hg]
    simp [comps, splitSlash, splitBy]
  | false =>
    cases hst : st with
    | nil => simp [renderPath, comps, splitSlash, splitBy]
    | cons c rest =>
      simp only [renderPath, Bool.false_eq_true, if_false]
      rw [if_neg (by simp)]
      exact comps_renderStack (c :: rest) (hst ▸ hg)

theorem pushComp_regular (r : Bool) (acc : List Str) (c : Str) (h : c ≠ ['.', '.']) :
    pushComp r acc c = c :: acc := by
  simp [pushComp, h]

theorem foldl_push_regular (r : Bool) :
    ∀ (cs : List Str), (∀ c ∈ cs, c ≠ ['.', '.']) → ∀ acc,
      cs.foldl (pushComp r) acc = cs.reverse ++ acc := by
  intro cs
  induction cs with
  | nil => intro _ acc; simp
  | cons c cs ih =>
    intro h acc
    rw [List.foldl_cons, pushComp_regular r acc c (h c (by simp)),
      ih (fun x hx => h x (by simp [hx])) (c :: acc)]
    simp

theorem foldl_push_replicate :
    ∀ (k m : Nat), (List.replicate k (['.', '.'] : Str)).foldl (pushComp false)
        (List.replicate m ['.', '.']) = List.replicate (k + m) ['.', '.'] := by
  intro k
  induction k with
  | zero => intro m; simp
  | succ k ih =>
    intro m
    rw [List.replicate_succ, List.foldl_cons]
    have hpush : pushComp false (List.replicate m (['.', '.'] : Str)) ['.', '.'] =
        List.replicate (m + 1) ['.', '.'] := by
      cases m with
      | zero => simp [pushComp]
      | succ m2 => simp [pushComp, List.replicate_succ]
    rw [hpush, ih (m + 1)]
    congr 1
    omega

/-- normedStack characterises the stacks `normComps` can produce: a rooted
stack has no `..` left; a relative stack is a run of leading `..`
components followed by `..`-free ones. -/
def normedStack : Bool → List Str → Prop
  | true, st => ∀ c ∈ st, c ≠ ['.', '.']
  | false, st =>
    ∃ k rest, st = List.replicate k ['.', '.'] ++ rest ∧ ∀ c ∈ rest, c ≠ ['.', '.']

theorem norm_fix (r : Bool) (st : List Str) (hn : normedStack r st) :
    normComps r st = st := by
  cases r with
  | true =>
    rw [normComps, foldl_push_regular true st hn []]
    simp
  | false =>
    obtain ⟨k, rest, heq, hrest⟩ := hn
    subst heq
    rw [normComps, List.foldl_append]
    rw [show (List.replicate k (['.', '.'] : Str)).foldl (pushComp false) [] =
        List.replicate k ['.', '.'] from by simpa using foldl_push_replicate k 0]
    rw [foldl_push_regular false rest hrest (List.replicate k ['.', '.'])]
    rw [List.reverse_append, List.reverse_reverse, List.reverse_replicate]

theorem pushComp_dd_nil_true : pushComp true [] ['.', '.'] = [] := by
  simp [pushComp]

theorem pushComp_dd_nil_false : pushComp false [] ['.', '.'] = [['.', '.']] := by
  simp [pushComp]

theorem pushComp_dd_pop (r : Bool) (top : Str) (rest : List Str)
    (ht : top ≠ ['.', '.']) : pushComp r (top :: rest) ['.', '.'] = rest := by
  simp [pushComp, ht]

theorem pushComp_dd_push (r : Bool) (top : Str) (rest : List Str)
    (ht : top = ['.', '.']) :
    pushComp r (top :: rest) ['.', '.'] = ['.', '.'] :: top :: rest := by
  simp [pushComp, ht]

theorem pushComp_mem (r : Bool) (acc : List Str) (c x : Str)
    (hx : x ∈ pushComp r acc c) : x = c ∨ x ∈ acc := by
  by_cases hc : c = ['.', '.']
  · subst hc
    cases acc with
    | nil =>
      cases r with
      | true => rw [pushComp_dd_nil_true] at hx; cases hx
      | false =>
        rw [pushComp_dd_nil_false] at hx
        exact Or.inl (List.mem_singleton.mp hx)
    | cons top rest =>
      by_cases ht : top = ['.', '.']
      · rw [pushComp_dd_push r top rest ht] at hx
        rcases List.mem_cons.mp hx with rfl | hx2
        · exact Or.inl rfl
        · exact Or.inr hx2
      · rw [pushComp_dd_pop r top rest ht] at hx
        exact Or.inr (List.mem_cons_of_mem top hx)
  · rw [pushComp_regular r acc c hc] at hx
    exact List.mem_cons.mp hx

theorem foldl_push_mem (r : Bool) :
    ∀ (cs acc : List Str) (x : Str), x ∈ cs.foldl (pushComp r) acc → x ∈ acc ∨ x ∈ cs := by
  intro cs
  induction cs with
  | nil => intro acc x hx; exact Or.inl hx
  | cons c cs ih =>
    intro acc x hx
    rw [List.foldl_cons] at hx
    rcases ih (pushComp r acc c) x hx with h1 | h2
    · rcases pushComp_mem r acc c x h1 with rfl | h3
      · exact Or.inr (by simp)
      · exact Or.inl h3
    · exact Or.inr (by simp [h2])

theorem normComps_good (r : Bool) (cs : List Str) (h : goodStack cs) :
    goodStack (normComps r cs) := by
  intro x hx
  rw [normComps, List.mem_reverse] at hx
  rcases foldl_push_mem r cs [] x hx with h1 | h2
  · cases h1
  · exact h x h2

theorem foldl_rooted_no_dd :
    ∀ (cs acc : List Str), (∀ x ∈ acc, x ≠ ['.', '.']) →
      ∀ x ∈ cs.foldl (pushComp true) acc, x ≠ ['.', '.'] := by
  intro cs
  induction cs with
  | nil => exact fun acc h => h
  | cons c cs ih =>
    intro acc hacc
    rw [List.foldl_cons]
    apply ih
    intro x hx
    by_cases hc : c = ['.', '.']
    · subst hc
      cases acc with
      | nil => rw [pushComp_dd_nil_true] at hx; cases hx
      | cons top rest =>
        by_cases ht : top = ['.', '.']
        · exact absurd ht (hacc top (by simp))
        · rw [pushComp_dd_pop true top rest ht] at hx
          exact hacc x (List.mem_cons_of_mem top hx)
    · rw [pushComp_regular true acc c hc] at hx
      rcases List.mem_cons.mp hx with rfl | hx2
      · exact hc
      · exact hacc x hx2

/-- ndInv is the invariant of the relative-path `pushComp` stack:
most-recent-first, it is `..`-free components on top of a block of `..`
components. -/
def ndInv (acc : List Str) : Prop :=
  ∃ regs dds, acc = regs ++ dds ∧ (∀ x ∈ regs, x ≠ ['.', '.']) ∧
    (∀ x ∈ dds, x = ['.', '.'])

theorem pushComp_false_inv (acc : List Str) (c : Str) (h : ndInv acc) :
    ndInv (pushComp false acc c) := by
  by_cases hc : c = ['.', '.']
  · subst hc
    cases acc with
    | nil => exact ⟨[], [['.', '.']], by simp [pushComp], by simp, by simp⟩
    | cons top rest =>
      obtain ⟨regs, dds, heq, hregs, hdds⟩ := h
      by_cases ht : top = ['.', '.']
      · have hregs0 : regs = [] := by
          cases hr : regs with
          | nil => rfl
          | cons r0 rs =>
            rw [hr, List.cons_append] at heq
            injection heq with h1 h2
            exact absurd (h1 ▸ ht) (hregs r0 (by simp [hr]))
        rw [hregs0, List.nil_append] at heq
        refine ⟨[], ['.', '.'] :: top :: rest,
        by rw [pushComp_dd_push false top rest ht]; simp, by simp, ?_⟩
        intro x hx
        rcases List.mem_cons.mp hx with rfl | hx2
        · rfl
        · exact hdds x (heq ▸ hx2)
      · have hpop : pushComp false (top :: rest) ['.', '.'] = rest :=
          pushComp_dd_pop false top rest ht
        cases hr : regs with
        | nil =>
          rw [hr, List.nil_append] at heq
          exact absurd (hdds top (heq ▸ List.mem_cons_self top rest)) ht
        | cons r0 rs =>
          rw [hr, List.cons_append] at heq
          injection heq with h1 h2
          refine ⟨rs, dds, ?_, fun x hx => hregs x (by simp [hr, hx]), hdds⟩
          rw [hpop]
          exact h2
  · obtain ⟨regs, dds, heq, hregs, hdds⟩ := h
    refine ⟨c :: regs, dds, by simp [pushComp, hc, heq], ?_, hdds⟩
    intro x hx
    rcases List.mem_cons.mp hx with rfl | hx2
    · exact hc
    · exact hregs x hx2

theorem foldl_false_inv :
    ∀ (cs acc : List Str), ndInv acc → ndInv (cs.foldl (pushComp false) acc) := by
  intro cs
  induction cs with
  | nil => exact fun acc h => h
  | cons c cs ih =>
    intro acc h
    rw [List.foldl_cons]
    exact ih _ (pushComp_false_inv acc c h)

theorem norm_normed (r : Bool) (cs : List Str) : normedStack r (normComps r cs) := by
  cases r with
  | true =>
    intro x hx
    rw [normComps, List.mem_reverse] at hx
    exact foldl_rooted_no_dd cs [] (by simp) x hx
  | false =>
    obtain ⟨regs, dds, heq, hregs, hdds⟩ :=
      foldl_false_inv cs [] ⟨[], [], rfl, by simp, by simp⟩
    refine ⟨dds.length, regs.reverse, ?_, ?_⟩
    · rw [normComps, heq, List.reverse_append]
      congr 1
      rw [← List.length_reverse dds]
      apply List.eq_replicate_length.mpr
      intro b hb
      exact hdds b (List.mem_reverse.mp hb)
    · intro x hx
      exact hregs x (List.mem_reverse.mp hx)

theorem normComps_append_regular (r : Bool) (st : List Str) (b : Str)
    (hn : normedStack r st) (hb : b ≠ ['.', '.']) :
    normComps r (st ++ [b]) = st ++ [b] := by
  have hst : st.foldl (pushComp r) [] = st.reverse := by
    have h1 : (st.foldl (pushComp r) []).reverse = st := norm_fix r st hn
    calc st.foldl (pushComp r) []
        = ((st.foldl (pushComp r) []).reverse).reverse := by simp
      _ = st.reverse := by rw [h1]
  rw [normComps, List.foldl_append, hst, List.foldl_cons, List.foldl_nil,
    pushComp_regular r _ b hb]
  simp

theorem normedStack_append_regular (r : Bool) (st : List Str) (b : Str)
    (hn : normedStack r st) (hb : b ≠ ['.', '.']) : normedStack r (st ++ [b]) := by
  cases r with
  | true =>
    intro x hx
    rcases List.mem_append.mp hx with h1 | h2
    · exact hn x h1
    · rw [List.mem_singleton.mp h2]; exact hb
  | false =>
    obtain ⟨k, rest, heq, hrest⟩ := hn
    refine ⟨k, rest ++ [b], by rw [heq, List.append_assoc], ?_⟩
    intro x hx
    rcases List.mem_append.mp hx with h1 | h2
    · exact hrest x h1
    · rw [List.mem_singleton.mp h2]; exact hb

theorem normedStack_dropLast (r : Bool) (st : List Str) (b : Str)
    (hn : normedStack r (st ++ [b])) : normedStack r st := by
  cases r with
  | true => exact fun x hx => hn x (List.mem_append_left [b] hx)
  | false =>
    obtain ⟨k, rest, heq, hrest⟩ := hn
    rcases List.eq_nil_or_concat rest with rfl | ⟨rest2, rb, rfl⟩
    · rw [List.append_nil] at heq
      have hall : ∀ x ∈ st, x = ['.', '.'] := fun x hx =>
        List.eq_of_mem_replicate (heq ▸ List.mem_append_left [b] hx)
      exact ⟨st.length, [], by rw [List.append_nil]; exact List.eq_replicate_length.mpr hall,
        by simp⟩
    · rw [List.concat_eq_append, ← List.append_assoc] at heq
      have h2 : st = List.replicate k ['.', '.'] ++ rest2 := by
        have h3 := congrArg List.dropLast heq
        simpa using h3
      refine ⟨k, rest2, h2, fun x hx => hrest x ?_⟩
      rw [List.concat_eq_append]
      simp [hx]

theorem takeWhile_all_of {p : Char → Bool} :
    ∀ (l : Str), (∀ a ∈ l, p a = true) → l.takeWhile p = l := by
  intro l
  induction l with
  | nil => intro _; rfl
  | cons c rest ih =>
    intro h
    rw [List.takeWhile_cons, if_pos (h c (by simp)), ih (fun a ha => h a (by simp [ha]))]

theorem takeWhile_append_stop {p : Char → Bool} :
    ∀ (l1 : Str), (∀ a ∈ l1, p a = true) → ∀ (x : Char) (l2 : Str), p x = false →
      (l1 ++ x :: l2).takeWhile p = l1 := by
  intro l1
  induction l1 with
  | nil => intro _ x l2 hx; simp [List.takeWhile_cons, hx]
  | cons c rest ih =>
    intro h x l2 hx
    rw [List.cons_append, List.takeWhile_cons, if_pos (h c (by simp)),
      ih (fun a ha => h a (by simp [ha])) x l2 hx]

theorem dropWhile_append_stop {p : Char → Bool} :
    ∀ (l1 : Str), (∀ a ∈ l1, p a = true) → ∀ (x : Char) (l2 : Str), p x = false →
      (l1 ++ x :: l2).dropWhile p = x :: l2 := by
  intro l1
  induction l1 with
  | nil => intro _ x l2 hx; simp [List.dropWhile_cons, hx]
  | cons c rest ih =>
    intro h x l2 hx
    rw [List.cons_append, List.dropWhile_cons, if_pos (h c (by simp)),
      ih (fun a ha => h a (by simp [ha])) x l2 hx]

theorem dropWhile_all_of {p : Char → Bool} :
    ∀ (l : Str), (∀ a ∈ l, p a = true) → l.dropWhile p = [] := by
  intro l
  induction l with
  | nil => intro _; rfl
  | cons c rest ih =>
    intro h
    rw [List.dropWhile_cons, if_pos (h c (by simp)), ih (fun a ha => h a (by simp [ha]))]

theorem dropWhile_eq_cons_head {p : Char → Bool} :
    ∀ (l : Str) (c : Char) (rest : Str), l.dropWhile p = c :: rest → p c = false := by
  intro l
  induction l with
  | nil => intro c rest h; cases h
  | cons x xs ih =>
    intro c rest h
    rw [List.dropWhile_cons] at h
    by_cases hx : p x
    · rw [if_pos hx] at h
      exact ih c rest h
    · rw [if_neg hx] at h
      injection h with h1 _
      rw [h1] at hx
      simpa using hx

theorem baseName_append (x b : Str) (hb : b ≠ []) (hsep : '/' ∉ b) :
    baseName (x ++ '/' :: b) = b := by
  have hne : x ++ '/' :: b ≠ [] := by simp
  rw [baseName, if_neg hne]
  obtain ⟨c, b2, hb2⟩ : ∃ c b2, b.reverse = c :: b2 := by
    cases hbr : b.reverse with
    | nil => exact absurd (by simpa using congrArg List.reverse hbr) hb
    | cons c b2 => exact ⟨c, b2, rfl⟩
  have hcmem : ∀ a ∈ b.reverse, a ≠ '/' := by
    intro a ha he
    exact hsep (he ▸ List.mem_reverse.mp ha)
  have hc : c ≠ '/' := hcmem c (by simp [hb2])
  have hrev : (x ++ '/' :: b).reverse = b.reverse ++ '/' :: x.reverse := by simp
  have hdrop : ((x ++ '/' :: b).reverse).dropWhile (fun ch => ch = '/') =
      (x ++ '/' :: b).reverse := by
    rw [hrev, hb2, List.cons_append, List.dropWhile_cons, if_neg (by simpa using hc)]
  rw [hdrop, List.reverse_reverse, if_neg hne, hrev]
  rw [takeWhile_append_stop b.reverse
    (fun a ha => by simpa using hcmem a ha) '/' x.reverse (by simp)]
  simp

theorem baseName_sepFree_self (b : Str) (hb : b ≠ []) (hsep : '/' ∉ b) :
    baseName b = b := by
  rw [baseName, if_neg hb]
  obtain ⟨c, b2, hb2⟩ : ∃ c b2, b.reverse = c :: b2 := by
    cases hbr : b.reverse with
    | nil => exact absurd (by simpa using congrArg List.reverse hbr) hb
    | cons c b2 => exact ⟨c, b2, rfl⟩
  have hcmem : ∀ a ∈ b.reverse, a ≠ '/' := by
    intro a ha he
    exact hsep (he ▸ List.mem_reverse.mp ha)
  have hdrop : (b.reverse).dropWhile (fun ch => ch = '/') = b.reverse := by
    rw [hb2, List.dropWhile_cons, if_neg (by simpa using hcmem c (by simp [hb2]))]
  rw [hdrop, List.reverse_reverse, if_neg hb]
  rw [takeWhile_all_of b.reverse (fun a ha => by simpa using hcmem a ha)]
  simp

theorem baseName_ne_nil (path : Str) : baseName path ≠ [] := by
  rw [baseName]
  by_cases h : path = []
  · simp [h]
  rw [if_neg h]
  by_cases ht : ((path.reverse.dropWhile (fun c => c = '/'))).reverse = []
  · simp [ht]
  rw [if_neg ht]
  obtain ⟨c, rest, hcr⟩ : ∃ c rest, path.reverse.dropWhile (fun ch => ch = '/') = c :: rest := by
    cases hd : path.reverse.dropWhile (fun ch => ch = '/') with
    | nil => exact absurd (by simp [hd]) ht
    | cons c rest => exact ⟨c, rest, rfl⟩
  have hc : c ≠ '/' := by
    have := dropWhile_eq_cons_head path.reverse c rest hcr
    simpa using this
  rw [List.reverse_reverse, hcr, List.takeWhile_cons, if_pos (by simpa using hc)]
  simp

theorem baseName_sepFree (path : Str) (h : baseName path ≠ ['/']) :
    '/' ∉ baseName path := by
  rw [baseName] at h ⊢
  by_cases h0 : path = []
  · simp [h0]
  rw [if_neg h0] at h ⊢
  by_cases ht : ((path.reverse.dropWhile (fun c => c = '/'))).reverse = []
  · rw [if_pos ht] at h
    exact absurd rfl h
  rw [if_neg ht] at h ⊢
  intro hmem
  have hmem2 := List.mem_reverse.mp hmem
  have := List.mem_takeWhile_imp hmem2
  simp at this

theorem dirPart_append (x b : Str) (hsep : '/' ∉ b) : dirPart (x ++ '/' :: b) = x ++ ['/'] := by
  rw [dirPart]
  have hrev : (x ++ '/' :: b).reverse = b.reverse ++ '/' :: x.reverse := by simp
  rw [hrev, dropWhile_append_stop b.reverse
    (fun a ha => by
      simp only [decide_eq_true_eq]
      exact fun he => hsep (he ▸ List.mem_reverse.mp ha)) '/' x.reverse (by simp)]
  simp

theorem dirPart_sepFree (b : Str) (hsep : '/' ∉ b) : dirPart b = [] := by
  rw [dirPart, dropWhile_all_of b.reverse (fun a ha => by
    simp only [decide_eq_true_eq]
    exact fun he => hsep (he ▸ List.mem_reverse.mp ha))]
  rfl

theorem cleanPath_render_slash (r : Bool) (st : List Str) (hg : goodStack st)
    (hn : normedStack r st) : cleanPath (renderPath r st ++ ['/']) = renderPath r st := by
  have hne : renderPath r st ≠ [] := renderPath_ne_nil r st hg
  rw [cleanPath, if_neg (by simp [hne]), isRootedPath_append _ _ hne,
    isRootedPath_renderPath r st hg]
  have hcomp : comps (renderPath r st ++ ['/']) = st := by
    rw [show renderPath r st ++ ['/'] = renderPath r st ++ '/' :: [] from rfl,
      comps_append_sep, comps_renderPath r st hg]
    simp [comps, splitSlash, splitBy]
  rw [hcomp, norm_fix r st hn]

theorem cleanPath_render_append (r : Bool) (st : List Str) (b : Str) (hg : goodStack st)
    (hb1 : b ≠ []) (hb2 : b ≠ ['.']) (hb3 : '/' ∉ b) :
    cleanPath (renderPath r st ++ '/' :: b) = renderPath r (normComps r (st ++ [b])) := by
  have hne : renderPath r st ≠ [] := renderPath_ne_nil r st hg
  rw [cleanPath, if_neg (by simp [hne]), isRootedPath_append _ _ hne,
    isRootedPath_renderPath r st hg, comps_append_sep, comps_renderPath r st hg,
    comps_sepFree b hb3 hb1 hb2]

theorem cleanPath_render_dot (r : Bool) (st : List Str) (hg : goodStack st)
    (hn : normedStack r st) :
    cleanPath (renderPath r st ++ '/' :: ['.']) = renderPath r st := by
  have hne : renderPath r st ≠ [] := renderPath_ne_nil r st hg
  rw [cleanPath, if_neg (by simp [hne]), isRootedPath_append _ _ hne,
    isRootedPath_renderPath r st hg, comps_append_sep, comps_renderPath r st hg,
    show comps ['.'] = [] from rfl, List.append_nil, norm_fix r st hn]

theorem renderPath_append_last (r : Bool) (st : List Str) (b : Str) (h : st ≠ []) :
    renderPath r (st ++ [b]) = renderPath r st ++ '/' :: b := by
  cases r with
  | true =>
    simp only [renderPath, if_true]
    rw [renderStack_append_last b st h]
    simp
  | false =>
    simp only [renderPath, Bool.false_eq_true, if_false]
    rw [if_neg (by simp), if_neg h, renderStack_append_last b st h]

theorem dirName_render_append (r : Bool) (st : List Str) (b : Str) (hg : goodStack st)
    (hn : normedStack r st) (_hb1 : b ≠ []) (hb3 : '/' ∉ b) :
    dirName (renderPath r (st ++ [b])) = renderPath r st := by
  by_cases hst : st = []
  · subst hst
    cases r with
    | false =>
      rw [show renderPath false ([] ++ [b]) = b from by
        simp [renderPath, renderStack]]
      rw [dirName, dirPart_sepFree b hb3]
      decide
    | true =>
      rw [show renderPath true ([] ++ [b]) = [] ++ '/' :: b from by
        simp [renderPath, renderStack]]
      rw [dirName, dirPart_append [] b hb3]
      decide
  · rw [renderPath_append_last r st b hst, dirName, dirPart_append _ b hb3]
    exact cleanPath_render_slash r st hg hn

theorem baseName_render_append (r : Bool) (st : List Str) (b : Str)
    (hb1 : b ≠ []) (hb3 : '/' ∉ b) :
    baseName (renderPath r (st ++ [b])) = b := by
  by_cases hst : st = []
  · subst hst
    cases r with
    | false =>
      rw [show renderPath false ([] ++ [b]) = b from by simp [renderPath, renderStack]]
      exact baseName_sepFree_self b hb1 hb3
    | true =>
      rw [show renderPath true ([] ++ [b]) = [] ++ '/' :: b from by
        simp [renderPath, renderStack]]
      exact baseName_append [] b hb1 hb3
  · rw [renderPath_append_last r st b hst]
    exact baseName_append _ b hb1 hb3

theorem joinPath_render (r : Bool) (st : List Str) (b : Str) (hg : goodStack st) :
    joinPath (renderPath r st) b = cleanPath (renderPath r st ++ '/' :: b) := by
  rw [joinPath, if_neg (renderPath_ne_nil r st hg)]

theorem joinPath_dir_base (r : Bool) (st : List Str) (hg : goodStack st)
    (hn : normedStack r st) :
    joinPath (dirName (renderPath r st)) (baseName (renderPath r st)) = renderPath r st := by
  rcases List.eq_nil_or_concat st with rfl | ⟨st2, b, hcat⟩
  · cases r with
    | true => decide
    | false => decide
  · rw [List.concat_eq_append] at hcat
    subst hcat
    have hb := hg b (by simp)
    have hg2 : goodStack st2 := fun x hx => hg x (by simp [hx])
    have hn2 : normedStack r st2 := normedStack_dropLast r st2 b hn
    rw [dirName_render_append r st2 b hg2 hn2 hb.1 hb.2.2,
      baseName_render_append r st2 b hb.1 hb.2.2,
      joinPath_render r st2 b hg2,
      cleanPath_render_append r st2 b hg2 hb.1 hb.2.1 hb.2.2,
      norm_fix r (st2 ++ [b]) hn]

theorem affix_nil (b : Str) : affixName [] [] b = b := by
  simp [affixName]

theorem affix_ne_nil (pfx sfx b : Str) (hb : b ≠ []) : affixName pfx sfx b ≠ [] := by
  simp only [affixName]
  split <;> split <;> simp [hb]

theorem affix_sepFree (pfx sfx b : Str) (hp : '/' ∉ pfx) (hs : '/' ∉ sfx)
    (hb : '/' ∉ b) : '/' ∉ affixName pfx sfx b := by
  simp only [affixName]
  split <;> split <;> simp_all

theorem affix_keeps_pfx (pfx sfx b : Str) (hp : pfx ≠ []) :
    pfx.isPrefixOf (affixName pfx sfx b) = true := by
  simp only [affixName]
  have h1 : pfx.isPrefixOf (if pfx ≠ [] ∧ ¬ pfx.isPrefixOf b then pfx ++ b else b) = true := by
    by_cases h : pfx.isPrefixOf b
    · rw [if_neg (by simp [h])]
      exact h
    · rw [if_pos ⟨hp, by simpa using h⟩]
      exact List.isPrefixOf_iff_prefix.mpr (List.prefix_append pfx b)
  by_cases h2 : sfx ≠ [] ∧
      ¬ sfx.isSuffixOf (if pfx ≠ [] ∧ ¬ pfx.isPrefixOf b then pfx ++ b else b)
  · rw [if_pos h2]
    exact List.isPrefixOf_iff_prefix.mpr
      ((List.isPrefixOf_iff_prefix.mp h1).trans (List.prefix_append _ sfx))
  · rw [if_neg h2]
    exact h1

theorem affix_keeps_sfx (pfx sfx b : Str) (hs : sfx ≠ []) :
    sfx.isSuffixOf (affixName pfx sfx b) = true := by
  simp only [affixName]
  by_cases h2 : sfx ≠ [] ∧
      ¬ sfx.isSuffixOf (if pfx ≠ [] ∧ ¬ pfx.isPrefixOf b then pfx ++ b else b)
  · rw [if_pos h2]
    exact List.isSuffixOf_iff_suffix.mpr (List.suffix_append _ sfx)
  · rw [if_neg h2]
    rw [not_and, not_not] at h2
    exact h2 hs

theorem affix_fix (pfx sfx b : Str) :
    affixName pfx sfx (affixName pfx sfx b) = affixName pfx sfx b := by
  have h1 : ¬ (pfx ≠ [] ∧ ¬ pfx.isPrefixOf (affixName pfx sfx b)) := by
    rintro ⟨hp, hpre⟩
    exact hpre (affix_keeps_pfx pfx sfx b hp)
  have h2 : ¬ (sfx ≠ [] ∧ ¬ sfx.isSuffixOf (affixName pfx sfx b)) := by
    rintro ⟨hsne, hsuf⟩
    exact hsuf (affix_keeps_sfx pfx sfx b hsne)
  conv_lhs => rw [affixName]
  simp only [if_neg h1, if_neg h2]

theorem affix_not_dot_dotdot (pfx sfx b : Str) (hb : b ≠ [])
    (hs1 : sfx ≠ []) (hs2 : sfx ≠ ['.']) (hs3 : sfx ≠ ['.', '.']) :
    affixName pfx sfx b ≠ ['.'] ∧ affixName pfx sfx b ≠ ['.', '.'] := by
  simp only [affixName]
  have hb1 : (if pfx ≠ [] ∧ ¬ pfx.isPrefixOf b then pfx ++ b else b) ≠ [] := by
    split <;> simp [hb]
  set b1 := if pfx ≠ [] ∧ ¬ pfx.isPrefixOf b then pfx ++ b else b with hb1def
  have hb1len : 1 ≤ b1.length := by
    cases hb1e : b1 with
    | nil => exact absurd hb1e hb1
    | cons y ys => simp
  have hslen : 1 ≤ sfx.length := by
    cases hse : sfx with
    | nil => exact absurd hse hs1
    | cons y ys => simp
  split
  · constructor
    · intro he
      have hlen := congrArg List.length he
      simp only [List.length_append, List.length_cons, List.length_nil] at hlen
      omega
    · intro he
      have hlen := congrArg List.length he
      simp only [List.length_append, List.length_cons, List.length_nil] at hlen
      have hb1one : b1.length = 1 := by omega
      have hdrop : sfx = List.drop 1 ['.', '.'] := by
        rw [← hb1one, ← List.drop_left b1 sfx, he]
      rw [show List.drop 1 (['.', '.'] : List Char) = ['.'] from rfl] at hdrop
      exact hs2 hdrop
  · rename_i hcond
    rw [not_and, not_not] at hcond
    have hsuf : sfx <:+ b1 := List.isSuffixOf_iff_suffix.mp (hcond hs1)
    obtain ⟨t, ht⟩ := hsuf
    constructor
    · intro he
      rw [he] at ht
      have hlen := congrArg List.length ht
      simp only [List.length_append, List.length_cons, List.length_nil] at hlen
      have ht0 : t.length = 0 := by omega
      rw [List.length_eq_zero.mp ht0, List.nil_append] at ht
      exact hs2 ht
    · intro he
      rw [he] at ht
      have hlen := congrArg List.length ht
      simp only [List.length_append, List.length_cons, List.length_nil] at hlen
      by_cases htl : t.length = 0
      · rw [List.length_eq_zero.mp htl, List.nil_append] at ht
        exact hs3 ht
      · have htl1 : t.length = 1 := by omega
        have hdrop : sfx = List.drop 1 ['.', '.'] := by
          rw [← htl1, ← List.drop_left t sfx, ht]
        rw [show List.drop 1 (['.', '.'] : List Char) = ['.'] from rfl] at hdrop
        exact hs2 hdrop

theorem cleanPath_form (path : Str) :
    ∃ r st, goodStack st ∧ normedStack r st ∧ cleanPath path = renderPath r st := by
  by_cases h : path = []
  · refine ⟨false, [], ?_, ⟨0, [], rfl, by simp⟩, by simp [h, cleanPath, renderPath]⟩
    intro c hc
    cases hc
  · exact ⟨isRootedPath path, normComps (isRootedPath path) (comps path),
      normComps_good _ _ (comps_good path), norm_normed _ _, by rw [cleanPath, if_neg h]⟩

/-- C7 (amended): output-name synthesis is idempotent for every naming
kind and every stem whose base name is not the bare separator `/`, i.e.
every stem that is not entirely path separators: for a separator-free
prefix and suffix where either both are empty (the ELF and macOS
executable and object kinds) or the suffix is a real extension (non-empty
and not `.` or `..`, as every platform suffix is),
`formFilename pfx (formFilename pfx stem sfx) sfx = formFilename pfx stem
sfx`. For the excluded stems the original claim fails: see the
counterexample at the stem `/`. -/
theorem formFilename_idempotent (pfx sfx stem : Str)
    (hp : '/' ∉ pfx) (hs : '/' ∉ sfx) (hbase : baseName stem ≠ ['/'])
    (hkind : (pfx = [] ∧ sfx = []) ∨ (sfx ≠ [] ∧ sfx ≠ ['.'] ∧ sfx ≠ ['.', '.'])) :
    formFilename pfx (formFilename pfx stem sfx) sfx = formFilename pfx stem sfx := by
  obtain ⟨r, st, hg, hn, hd⟩ := cleanPath_form (dirPart stem)
  have hb_ne : baseName stem ≠ [] := baseName_ne_nil stem
  have hb_sep : '/' ∉ baseName stem := baseName_sepFree stem hbase
  have hb2_ne : affixName pfx sfx (baseName stem) ≠ [] := affix_ne_nil pfx sfx _ hb_ne
  have hb2_sep : '/' ∉ affixName pfx sfx (baseName stem) :=
    affix_sepFree pfx sfx _ hp hs hb_sep
  have hff : formFilename pfx stem sfx =
      joinPath (renderPath r st) (affixName pfx sfx (baseName stem)) := by
    rw [formFilename, dirName, hd]
  by_cases hdot : affixName pfx sfx (baseName stem) = ['.']
  · have hps : pfx = [] ∧ sfx = [] := by
      rcases hkind with h | h
      · exact h
      · exact absurd hdot (affix_not_dot_dotdot pfx sfx _ hb_ne h.1 h.2.1 h.2.2).1
    have hff2 : formFilename pfx stem sfx = renderPath r st := by
      rw [hff, hdot, joinPath_render r st ['.'] hg, cleanPath_render_dot r st hg hn]
    rw [hff2, formFilename, hps.1, hps.2, affix_nil]
    exact joinPath_dir_base r st hg hn
  · by_cases hdd : affixName pfx sfx (baseName stem) = ['.', '.']
    · have hps : pfx = [] ∧ sfx = [] := by
        rcases hkind with h | h
        · exact h
        · exact absurd hdd (affix_not_dot_dotdot pfx sfx _ hb_ne h.1 h.2.1 h.2.2).2
      have hff2 : formFilename pfx stem sfx =
          renderPath r (normComps r (st ++ [['.', '.']])) := by
        rw [hff, hdd, joinPath_render r st _ hg,
          cleanPath_render_append r st ['.', '.'] hg (by decide) (by decide) (by decide)]
      have hg2 : goodStack (normComps r (st ++ [['.', '.']])) :=
        normComps_good r _ (fun x hx => by
          rcases List.mem_append.mp hx with h1 | h2
          · exact hg x h1
          · rw [List.mem_singleton.mp h2]
            exact ⟨by decide, by decide, by decide⟩)
      have hn2 : normedStack r (normComps r (st ++ [['.', '.']])) := norm_normed r _
      rw [hff2, formFilename, hps.1, hps.2, affix_nil]
      exact joinPath_dir_base r _ hg2 hn2
    · have hnorm : normComps r (st ++ [affixName pfx sfx (baseName stem)]) =
          st ++ [affixName pfx sfx (baseName stem)] :=
        normComps_append_regular r st _ hn hdd
      have hff2 : formFilename pfx stem sfx =
          renderPath r (st ++ [affixName pfx sfx (baseName stem)]) := by
        rw [hff, joinPath_render r st _ hg,
          cleanPath_render_append r st _ hg hb2_ne hdot hb2_sep, hnorm]
      rw [hff2, formFilename,
        dirName_render_append r st _ hg hn hb2_ne hb2_sep,
        baseName_render_append r st _ hb2_ne hb2_sep,
        affix_fix pfx sfx _,
        joinPath_render r st _ hg,
        cleanPath_render_append r st _ hg hb2_ne hdot hb2_sep, hnorm]

/-- C7 witness: the amended idempotence at the spec's own example, the
static-library kind on the ELF profile with stem `fred`. -/
theorem formFilename_idempotent_witness :
    elfPlatform.LibFilename (elfPlatform.LibFilename (str "fred")) =
      elfPlatform.LibFilename (str "fred") :=
  formFilename_idempotent (str "lib") (str ".a") (str "fred") (by decide) (by decide)
    (by decide) (Or.inr ⟨by decide, by decide, by decide⟩)
